import Mathlib

/-!
Verification of the `covmatrix` finite-difference Hessian / covariance module.

The source (`covmatrix.py`) is embedded shallowly:
* a numpy 1-d array (a point) becomes a `List ℚ`; real arithmetic is
  modelled by exact rational arithmetic, and the total division of `ℚ`
  (with `q / 0 = 0`) models the unguarded floating-point divisions;
* in-place writes `x[i] = v` on a copied array become `List.set` on the
  value that models the copy;
* the step-size argument, "scalar or array", becomes the sum type
  `StepSize`;
* `raise ValueError(...)` becomes an `Except CovErr` result;
* `numpy.linalg.inv`, an external collaborator, is modelled by
  `linalg_inv` (adjugate formula, failing on a vanishing determinant).
-/

namespace Covmatrix

/-- Model of a numpy 1-d float array: an ordered sequence of rationals. -/
abbrev Point := List ℚ

/-- Step size specification: `h` in the source is "scalar or array". -/
inductive StepSize where
  | scalar (s : ℚ)
  | seq (hs : List ℚ)

/-- Errors surfaced by the module: the `ValueError` raised by
`_get_x_and_h` (carrying the two mismatched sizes `h.size`, `x.size`),
and the `LinAlgError` raised by the external inversion routine on a
singular matrix. -/
inductive CovErr where
  | invalidDimension (hsize xsize : ℕ)
  | singularMatrix
deriving DecidableEq

/-- Embedding of `_get_x_and_h`: if `h` is a scalar it is broadcast to the
size of `x` (`zeros(ndim) + h`); if it is a sequence its length must match,
otherwise a `ValueError` carrying `(h.size, x.size)` is raised. -/
def _get_x_and_h (x : Point) (h : StepSize) : Except CovErr (Point × List ℚ) :=
  match h with
  | .scalar s => .ok (x, List.replicate x.length s)
  | .seq hs =>
      if hs.length ≠ x.length then
        .error (.invalidDimension hs.length x.length)
      else
        .ok (x, hs)

/-- Embedding of `calc_partial_ij`: the mixed second partial by the
four-point stencil.  The source copies `xin` into `x` and then mutates
`x[i]`, `x[j]` in sequence between the four evaluations of `func`; each
`let` below is one of those writes, in source order. -/
def calc_partial_ij (func : Point → ℚ) (xin : Point) (i j : ℕ) (h k : ℚ) : ℚ :=
  let x1 := (xin.set i (xin.getD i 0 + h)).set j (xin.getD j 0 + k)
  let f1 := func x1
  let x2 := x1.set j (xin.getD j 0 - k)
  let f2 := func x2
  let x3 := (x2.set i (xin.getD i 0 - h)).set j (xin.getD j 0 + k)
  let f3 := func x3
  let x4 := x3.set j (xin.getD j 0 - k)
  let f4 := func x4
  let num := f1 - f2 - f3 + f4
  let denom := 4 * h * k
  num / denom

/-- Embedding of `calc_partial_ii`: the pure second partial by the
three-point stencil.  The source copies `xin` into `x`, sets `x[i]` to
`xin[i] + h`, evaluates, evaluates at `xin` itself, then resets `x[i]` to
`xin[i] - h` on the same array and evaluates again. -/
def calc_partial_ii (func : Point → ℚ) (xin : Point) (i : ℕ) (h : ℚ) : ℚ :=
  let x1 := xin.set i (xin.getD i 0 + h)
  let f1 := func x1
  let f2 := func xin
  let x2 := x1.set i (xin.getD i 0 - h)
  let f3 := func x2
  let num := f1 - 2 * f2 + f3
  let denom := h ^ 2
  num / denom

/-- Model of a numpy 2-d array as a total map from index pairs to entries;
`zeros((n,n))` is `fun _ _ => 0` and `hess[a,b] = v` is `updEntry`. -/
def updEntry (m : ℕ → ℕ → ℚ) (a b : ℕ) (v : ℚ) : ℕ → ℕ → ℚ :=
  fun p q => if p = a ∧ q = b then v else m p q

/-- Body of the inner loop of `calc_hess` at index pair `(i, j)`: write the
diagonal entry when `i == j`, otherwise write the off-diagonal entry and
mirror it to `(j, i)`. -/
def hessStep (func : Point → ℚ) (x h : Point) (i : ℕ) (m : ℕ → ℕ → ℚ)
    (j : ℕ) : ℕ → ℕ → ℚ :=
  if i = j then
    updEntry m i i (calc_partial_ii func x i (h.getD i 0))
  else
    let v := calc_partial_ij func x i j (h.getD i 0) (h.getD j 0)
    updEntry (updEntry m i j v) j i v

/-- Inner loop of `calc_hess`: `for j in range(i, ndim)`. -/
def hessInner (func : Point → ℚ) (x h : Point) (i : ℕ) (m : ℕ → ℕ → ℚ) :
    ℕ → ℕ → ℚ :=
  (List.range' i (x.length - i)).foldl (hessStep func x h i) m

/-- Double loop of `calc_hess` over the upper triangle, starting from the
zero matrix, after `x` and `h` have been normalized. -/
def calc_hess_core (func : Point → ℚ) (x h : Point) : ℕ → ℕ → ℚ :=
  (List.range x.length).foldl (fun m i => hessInner func x h i m) (fun _ _ => 0)

/-- Embedding of `calc_hess`: normalize the inputs, then fill the matrix. -/
def calc_hess (func : Point → ℚ) (x : Point) (h : StepSize) :
    Except CovErr (ℕ → ℕ → ℚ) :=
  match _get_x_and_h x h with
  | .error e => .error e
  | .ok (x1, h1) => .ok (calc_hess_core func x1 h1)

/-- View of the filled map as an `x.length × x.length` matrix. -/
def toMat (n : ℕ) (m : ℕ → ℕ → ℚ) : Matrix (Fin n) (Fin n) ℚ :=
  Matrix.of fun i j => m i.val j.val

/-- Model of the external collaborator `numpy.linalg.inv`: invert a square
matrix, failing explicitly when it is singular.  On a nonsingular matrix it
returns the unique inverse, realised by the adjugate formula. -/
def linalg_inv {n : ℕ} (A : Matrix (Fin n) (Fin n) ℚ) :
    Except CovErr (Matrix (Fin n) (Fin n) ℚ) :=
  if A.det = 0 then .error .singularMatrix
  else .ok (A.det⁻¹ • A.adjugate)

/-- Embedding of `calc_cov`: `hess = calc_hess(func, x, h)` followed by
`cov = -linalg.inv(hess)`. -/
def calc_cov (func : Point → ℚ) (x : Point) (h : StepSize) :
    Except CovErr (Matrix (Fin x.length) (Fin x.length) ℚ) :=
  match calc_hess func x h with
  | .error e => .error e
  | .ok m =>
      match linalg_inv (toMat x.length m) with
      | .error e => .error e
      | .ok hinv => .ok (-hinv)

/-- Spec-side perturbation `x + δ·e_i`: coordinate `i` moved by `δ`, every
other coordinate untouched. -/
def addToCoord (x : Point) (i : ℕ) (δ : ℚ) : Point :=
  x.set i (x.getD i 0 + δ)

/-- Arguments passed to `func` by `calc_partial_ii`, in evaluation order. -/
def calc_partial_ii_evals (xin : Point) (i : ℕ) (h : ℚ) : List Point :=
  [xin.set i (xin.getD i 0 + h),
   xin,
   (xin.set i (xin.getD i 0 + h)).set i (xin.getD i 0 - h)]

/-- Arguments passed to `func` by `calc_partial_ij`, in evaluation order. -/
def calc_partial_ij_evals (xin : Point) (i j : ℕ) (h k : ℚ) : List Point :=
  let x1 := (xin.set i (xin.getD i 0 + h)).set j (xin.getD j 0 + k)
  let x2 := x1.set j (xin.getD j 0 - k)
  let x3 := (x2.set i (xin.getD i 0 - h)).set j (xin.getD j 0 + k)
  let x4 := x3.set j (xin.getD j 0 - k)
  [x1, x2, x3, x4]

/-- Arguments passed to `func` during the double loop of `calc_hess`
(with normalized step sizes `h`), in evaluation order. -/
def calc_hess_evals (x h : Point) : List Point :=
  (List.range x.length).flatMap fun i =>
    (List.range' i (x.length - i)).flatMap fun j =>
      if i = j then calc_partial_ii_evals x i (h.getD i 0)
      else calc_partial_ij_evals x i j (h.getD i 0) (h.getD j 0)

/-- Closed form of the entry the double loop leaves at position `(p, q)`
inside the `x.length × x.length` square; `calc_hess_core_apply` proves the
loop computes it. -/
def hessEntry (func : Point → ℚ) (x h : Point) (p q : ℕ) : ℚ :=
  if p = q then calc_partial_ii func x p (h.getD p 0)
  else if p < q then calc_partial_ij func x p q (h.getD p 0) (h.getD q 0)
  else calc_partial_ij func x q p (h.getD q 0) (h.getD p 0)

/-- Concrete objective used by the witnesses: `f(p) = p₀ · p₀`. -/
def sqFunc : Point → ℚ := fun p => p.getD 0 0 * p.getD 0 0

/-- Pointwise description of one inner-loop body execution at `(i, j)`
with `i ≤ j`: exactly the cells `(i, j)` and `(j, i)` now hold the
corresponding closed-form entry, everything else is untouched. -/
lemma hessStep_apply (func : Point → ℚ) (x h : Point) (i j : ℕ) (hij : i ≤ j)
    (m : ℕ → ℕ → ℚ) (p q : ℕ) :
    hessStep func x h i m j p q =
      if (p = i ∧ q = j) ∨ (q = i ∧ p = j) then hessEntry func x h p q
      else m p q := by
  by_cases hie : i = j
  · subst hie
    unfold hessStep updEntry
    rw [if_pos rfl]
    by_cases hp : p = i
    · subst hp
      by_cases hq : q = p
      · subst hq
        simp [hessEntry]
      · simp [hq]
    · simp [hp]
  · have hlt : i < j := lt_of_le_of_ne hij hie
    unfold hessStep updEntry
    rw [if_neg hie]
    by_cases hp : p = i
    · subst hp
      by_cases hq : q = j
      · subst hq
        simp [hie, Ne.symm hie, hlt, hessEntry]
      · simp [hie, hq]
    · by_cases hp2 : p = j
      · subst hp2
        by_cases hq2 : q = i
        · subst hq2
          have hnlt : ¬ p < q := by omega
          simp [Ne.symm hie, hnlt, hessEntry]
        · simp [Ne.symm hie, hq2]
      · simp [hp, hp2]

/-- Characterization of the inner loop `for j in range(s, s+k)` of
`calc_hess`: it writes the cells `(i, j)` and `(j, i)` for `j` in the
range, leaving every other cell of the accumulator untouched. -/
lemma range'_foldl_inner_apply (func : Point → ℚ) (x h : Point) (i : ℕ) :
    ∀ (k s : ℕ) (m : ℕ → ℕ → ℚ) (p q : ℕ), i ≤ s →
      ((List.range' s k).foldl (hessStep func x h i) m) p q =
        if (p = i ∧ s ≤ q ∧ q < s + k) ∨ (q = i ∧ s ≤ p ∧ p < s + k) then
          hessEntry func x h p q
        else m p q := by
  intro k
  induction k with
  | zero =>
      intro s m p q hs
      rw [show List.range' s 0 = [] from rfl, List.foldl_nil, if_neg (by omega)]
  | succ k ih =>
      intro s m p q hs
      rw [List.range'_succ, List.foldl_cons, ih (s + 1) _ p q (by omega),
        hessStep_apply func x h i s hs]
      split_ifs <;> first | rfl | omega

/-- Pointwise description of one outer iteration `hessInner`. -/
lemma hessInner_apply (func : Point → ℚ) (x h : Point) (i : ℕ)
    (m : ℕ → ℕ → ℚ) (p q : ℕ) :
    hessInner func x h i m p q =
      if (p = i ∧ i ≤ q ∧ q < i + (x.length - i)) ∨
         (q = i ∧ i ≤ p ∧ p < i + (x.length - i)) then
        hessEntry func x h p q
      else m p q := by
  unfold hessInner
  exact range'_foldl_inner_apply func x h i (x.length - i) i m p q le_rfl

/-- Characterization of the outer loop of `calc_hess` over
`for i in range(s, s+k)`. -/
lemma range'_foldl_outer_apply (func : Point → ℚ) (x h : Point) :
    ∀ (k s : ℕ) (m : ℕ → ℕ → ℚ) (p q : ℕ),
      ((List.range' s k).foldl (fun m i => hessInner func x h i m) m) p q =
        if (p ≤ q ∧ s ≤ p ∧ p < s + k ∧ q < x.length) ∨
           (q < p ∧ s ≤ q ∧ q < s + k ∧ p < x.length) then
          hessEntry func x h p q
        else m p q := by
  intro k
  induction k with
  | zero =>
      intro s m p q
      rw [show List.range' s 0 = [] from rfl, List.foldl_nil, if_neg (by omega)]
  | succ k ih =>
      intro s m p q
      rw [List.range'_succ, List.foldl_cons, ih (s + 1), hessInner_apply]
      split_ifs <;> first | rfl | omega

/-- Closed form of the matrix built by `calc_hess`: inside the
`x.length × x.length` square the loop has written `hessEntry`, outside it
the initial `zeros((ndim, ndim))` entry survives. -/
lemma calc_hess_core_apply (func : Point → ℚ) (x h : Point) (p q : ℕ) :
    calc_hess_core func x h p q =
      if p < x.length ∧ q < x.length then hessEntry func x h p q else 0 := by
  unfold calc_hess_core
  rw [List.range_eq_range', range'_foldl_outer_apply]
  split_ifs with h1 h2 <;> first | rfl | omega

/-- The closed-form entry is symmetric in its two indices. -/
lemma hessEntry_symm (func : Point → ℚ) (x h : Point) (p q : ℕ) :
    hessEntry func x h p q = hessEntry func x h q p := by
  unfold hessEntry
  rcases lt_trichotomy p q with hlt | heq | hgt
  · rw [if_neg (by omega), if_pos hlt, if_neg (by omega), if_neg (by omega)]
  · rw [heq]
  · rw [if_neg (by omega), if_neg (by omega), if_neg (by omega), if_pos hgt]

/-- Writing coordinate `i` leaves every other coordinate unchanged. -/
lemma getD_set_ne {i j : ℕ} (hij : i ≠ j) (l : Point) (v : ℚ) :
    (l.set i v).getD j 0 = l.getD j 0 := by
  simp [List.getD, List.getElem?_set_ne hij]

/-- The three-point stencil of `calc_partial_ii` rewritten with the
spec-side perturbations `x ± h·e_i`. -/
lemma calc_partial_ii_spec (func : Point → ℚ) (xin : Point) (i : ℕ) (h : ℚ) :
    calc_partial_ii func xin i h =
      (func (addToCoord xin i h) - 2 * func xin
        + func (addToCoord xin i (-h))) / h ^ 2 := by
  simp only [calc_partial_ii, addToCoord]
  rw [List.set_set, sub_eq_add_neg (xin.getD i 0) h]

/-- The four-point stencil of `calc_partial_ij` rewritten with the
spec-side perturbations: each of the four evaluation points moves
coordinates `i` and `j` of `x` by `±h`, `±k` and nothing else. -/
lemma calc_partial_ij_spec (func : Point → ℚ) (xin : Point) (i j : ℕ)
    (h k : ℚ) (hij : i ≠ j) :
    calc_partial_ij func xin i j h k =
      (func (addToCoord (addToCoord xin i h) j k)
        - func (addToCoord (addToCoord xin i h) j (-k))
        - func (addToCoord (addToCoord xin i (-h)) j k)
        + func (addToCoord (addToCoord xin i (-h)) j (-k))) / (4 * h * k) := by
  have hcomm : ∀ (a b : ℚ) (l : Point), (l.set j a).set i b = (l.set i b).set j a :=
    fun a b l => List.set_comm a b l (Ne.symm hij)
  simp only [calc_partial_ij, addToCoord]
  simp only [getD_set_ne hij, List.set_set, hcomm, sub_eq_add_neg]

/-- The value of `calc_partial_ii` is the stencil combination of `func` at
exactly the three points listed by `calc_partial_ii_evals`, in order. -/
lemma calc_partial_ii_evals_spec (func : Point → ℚ) (xin : Point) (i : ℕ) (h : ℚ) :
    calc_partial_ii func xin i h =
      (func ((calc_partial_ii_evals xin i h).getD 0 [])
        - 2 * func ((calc_partial_ii_evals xin i h).getD 1 [])
        + func ((calc_partial_ii_evals xin i h).getD 2 [])) / h ^ 2 := rfl

/-- The value of `calc_partial_ij` is the stencil combination of `func` at
exactly the four points listed by `calc_partial_ij_evals`, in order. -/
lemma calc_partial_ij_evals_spec (func : Point → ℚ) (xin : Point) (i j : ℕ)
    (h k : ℚ) :
    calc_partial_ij func xin i j h k =
      (func ((calc_partial_ij_evals xin i j h k).getD 0 [])
        - func ((calc_partial_ij_evals xin i j h k).getD 1 [])
        - func ((calc_partial_ij_evals xin i j h k).getD 2 [])
        + func ((calc_partial_ij_evals xin i j h k).getD 3 [])) / (4 * h * k) := rfl

/-- One inner-loop pass of the double loop, for a fixed `i < N`, evaluates
`func` exactly `3 + 4·(N-1-i)` times: three for the diagonal entry `(i,i)`
and four for each of the `N-1-i` off-diagonal entries `(i,j)`, `i < j < N`. -/
lemma inner_evals_length (x hs : Point) (i : ℕ) (hi : i < x.length) :
    ((List.range' i (x.length - i)).flatMap (fun j =>
        if i = j then calc_partial_ii_evals x i (hs.getD i 0)
        else calc_partial_ij_evals x i j (hs.getD i 0) (hs.getD j 0))).length
      = 3 + 4 * (x.length - 1 - i) := by
  rw [List.length_flatMap]
  obtain ⟨k, hk⟩ : ∃ k, x.length - i = k + 1 := ⟨x.length - i - 1, by omega⟩
  rw [hk, List.range'_succ, List.map_cons, List.sum_cons]
  have hmap : ∀ j ∈ List.range' (i + 1) k,
      (List.length ∘ fun j =>
        if i = j then calc_partial_ii_evals x i (hs.getD i 0)
        else calc_partial_ij_evals x i j (hs.getD i 0) (hs.getD j 0)) j
        = (fun _ => 4) j := by
    intro j hj
    rw [List.mem_range'_1] at hj
    have hij : i ≠ j := by omega
    simp [hij, calc_partial_ij_evals]
  rw [List.map_congr_left hmap]
  have hconst : (List.range' (i + 1) k).map (fun _ => 4) = List.replicate k 4 := by
    rw [show (fun (_ : ℕ) => 4) = Function.const ℕ 4 from rfl, List.map_const,
      List.length_range']
  rw [hconst, List.sum_replicate, smul_eq_mul]
  have h3 : (List.length ∘ fun j =>
      if i = j then calc_partial_ii_evals x i (hs.getD i 0)
      else calc_partial_ij_evals x i j (hs.getD i 0) (hs.getD j 0)) i = 3 := by
    simp [calc_partial_ii_evals]
  rw [h3]
  omega

/-- Summing `f i + c` over a list adds `c` once per element. -/
lemma sum_map_add_const (f : ℕ → ℕ) (c : ℕ) : ∀ l : List ℕ,
    (l.map (fun i => f i + c)).sum = (l.map f).sum + c * l.length := by
  intro l
  induction l with
  | nil => simp
  | cons hd tl ih =>
      simp only [List.map_cons, List.sum_cons, List.length_cons, ih]
      ring

/-- Gauss-style total of the per-column evaluation counts. -/
lemma sum_inner_lengths : ∀ n : ℕ,
    ((List.range n).map (fun i => 3 + 4 * (n - 1 - i))).sum
      = 3 * n + 4 * (n * (n - 1) / 2) := by
  intro n
  induction n with
  | zero => simp
  | succ n ih =>
      rw [List.range_succ, List.map_append, List.sum_append]
      have hshift : (List.range n).map (fun i => 3 + 4 * (n + 1 - 1 - i))
          = (List.range n).map (fun i => (3 + 4 * (n - 1 - i)) + 4) := by
        apply List.map_congr_left
        intro a ha
        rw [List.mem_range] at ha
        omega
      rw [hshift, sum_map_add_const (fun i => 3 + 4 * (n - 1 - i)) 4, ih,
        List.length_range]
      simp only [List.map_cons, List.map_nil, List.sum_cons, List.sum_nil]
      have hmul : (n + 1) * (n + 1 - 1) = n * (n - 1) + 2 * n := by
        cases n with
        | zero => rfl
        | succ m =>
            simp only [Nat.add_sub_cancel, Nat.succ_sub_one]
            ring
      rw [hmul]
      omega

/-- Counting occurrences in a concatenation of blocks, one per list
element, when each block contains the counted value at least once. -/
lemma length_le_count_flatMap (a : Point) (F : ℕ → List Point) :
    ∀ l : List ℕ, (∀ i ∈ l, a ∈ F i) → l.length ≤ ((l.flatMap F).count a) := by
  intro l
  induction l with
  | nil => simp
  | cons hd tl ih =>
      intro hmem
      rw [List.flatMap_cons, List.count_append]
      have h1 : 0 < (F hd).count a :=
        List.count_pos_iff.mpr (hmem hd (by simp))
      have h2 := ih fun i hi => hmem i (by simp [hi])
      simp only [List.length_cons]
      omega

/-- C2: for every objective, point and step specification, the matrix
returned by `calc_hess` (when it returns one) is exactly symmetric:
entry `(i, j)` equals entry `(j, i)` — the off-diagonal value is written
once by the loop and mirrored, never recomputed. -/
theorem calc_hess_symm (func : Point → ℚ) (x : Point) (h : StepSize) (i j : ℕ) :
    (calc_hess func x h).map (fun M => M i j)
      = (calc_hess func x h).map (fun M => M j i) := by
  unfold calc_hess
  cases hx : _get_x_and_h x h with
  | error e => rfl
  | ok xh =>
      obtain ⟨x1, h1⟩ := xh
      simp only [Except.map]
      congr 1
      rw [calc_hess_core_apply, calc_hess_core_apply, hessEntry_symm]
      split_ifs <;> first | rfl | omega

/-- C5: a step-size sequence whose length differs from the dimension of
`x` makes both `calc_hess` and `calc_cov` fail with the dimension error
carrying both lengths; the result does not depend on the objective
function, which is therefore never evaluated. -/
theorem calc_hess_cov_dim_mismatch (func : Point → ℚ) (x : Point)
    (hs : List ℚ) (hne : hs.length ≠ x.length) :
    calc_hess func x (.seq hs) = .error (.invalidDimension hs.length x.length) ∧
    calc_cov func x (.seq hs) = .error (.invalidDimension hs.length x.length) := by
  have h1 : _get_x_and_h x (.seq hs)
      = .error (.invalidDimension hs.length x.length) := by
    simp only [_get_x_and_h]
    rw [if_pos hne]
  refine ⟨?_, ?_⟩
  · unfold calc_hess
    rw [h1]
  · unfold calc_cov calc_hess
    rw [h1]

/-- Witness for C5 at the concrete mismatch `len h = 1`, `len x = 2`. -/
theorem calc_hess_cov_dim_mismatch_witness :
    calc_hess (fun _ => 0) [1, 2] (.seq [1]) = .error (.invalidDimension 1 2) ∧
    calc_cov (fun _ => 0) [1, 2] (.seq [1]) = .error (.invalidDimension 1 2) :=
  calc_hess_cov_dim_mismatch (fun _ => 0) [1, 2] [1] (by decide)

/-- C7: a scalar step size produces results identical to the explicit
length-N sequence holding that scalar in every entry, for both
`calc_hess` and `calc_cov`. -/
theorem scalar_step_eq_replicate (func : Point → ℚ) (x : Point) (s : ℚ) :
    calc_hess func x (.scalar s)
      = calc_hess func x (.seq (List.replicate x.length s)) ∧
    calc_cov func x (.scalar s)
      = calc_cov func x (.seq (List.replicate x.length s)) := by
  have h1 : _get_x_and_h x (.scalar s)
      = _get_x_and_h x (.seq (List.replicate x.length s)) := by
    simp only [_get_x_and_h]
    rw [if_neg (by simp)]
  refine ⟨?_, ?_⟩
  · unfold calc_hess
    rw [h1]
  · unfold calc_cov calc_hess
    rw [h1]

/-- C10: step-size values are never validated.  A zero scalar step (and a
zero sequence of matching length) is accepted by the normalizer,
`calc_hess` raises no error, and the stencils then divide by `h_i² = 0`
resp. `4·h_i·h_j = 0`: in the total-division model of `ℚ` their value
collapses to `0` independently of the objective, exhibiting that the
division is unguarded and only well-defined when every `h_i ≠ 0`. -/
theorem zero_step_unguarded (func : Point → ℚ) (x : Point) (i j : ℕ) (k : ℚ) :
    _get_x_and_h x (.scalar 0) = .ok (x, List.replicate x.length 0) ∧
    _get_x_and_h x (.seq (List.replicate x.length 0))
      = .ok (x, List.replicate x.length 0) ∧
    (∃ M, calc_hess func x (.scalar 0) = .ok M) ∧
    calc_partial_ii func x i 0 = 0 ∧
    calc_partial_ij func x i j 0 k = 0 ∧
    calc_partial_ij func x i j k 0 = 0 := by
  refine ⟨rfl, ?_, ⟨_, rfl⟩, ?_, ?_, ?_⟩
  · simp only [_get_x_and_h]
    rw [if_neg (by simp)]
  · simp [calc_partial_ii]
  · simp [calc_partial_ij]
  · simp [calc_partial_ij]

/-- C3: every diagonal entry of the Hessian returned by `calc_hess` is the
three-point central second difference
`(f(x + h_i·e_i) - 2·f(x) + f(x - h_i·e_i)) / h_i²`, the two perturbed
evaluation points moving only coordinate `i` of `x`. -/
theorem calc_hess_diag (func : Point → ℚ) (x : Point) (h : StepSize)
    (hs : List ℚ) (hnorm : _get_x_and_h x h = .ok (x, hs))
    (i : ℕ) (hi : i < x.length) :
    ∃ M, calc_hess func x h = .ok M ∧
      M i i =
        (func (addToCoord x i (hs.getD i 0)) - 2 * func x
          + func (addToCoord x i (-(hs.getD i 0)))) / (hs.getD i 0) ^ 2 ∧
      (∀ m, m ≠ i →
        (addToCoord x i (hs.getD i 0)).getD m 0 = x.getD m 0 ∧
        (addToCoord x i (-(hs.getD i 0))).getD m 0 = x.getD m 0) := by
  refine ⟨calc_hess_core func x hs, ?_, ?_, ?_⟩
  · unfold calc_hess
    rw [hnorm]
  · rw [calc_hess_core_apply, if_pos ⟨hi, hi⟩]
    unfold hessEntry
    rw [if_pos rfl, calc_partial_ii_spec]
  · intro m hm
    exact ⟨getD_set_ne (Ne.symm hm) x _, getD_set_ne (Ne.symm hm) x _⟩

/-- Witness for C3 at `f = sqFunc`, `x = [3]`, scalar step `2`. -/
theorem calc_hess_diag_witness :
    ∃ M, calc_hess sqFunc [3] (.scalar 2) = .ok M ∧
      M 0 0 = (sqFunc (addToCoord [3] 0 2) - 2 * sqFunc [3]
          + sqFunc (addToCoord [3] 0 (-2))) / (2 : ℚ) ^ 2 ∧
      (∀ m, m ≠ 0 →
        (addToCoord [3] 0 2).getD m 0 = ([3] : Point).getD m 0 ∧
        (addToCoord [3] 0 (-2)).getD m 0 = ([3] : Point).getD m 0) :=
  calc_hess_diag sqFunc [3] (.scalar 2) [2] rfl 0 (by decide)

/-- C4: every strict-upper off-diagonal entry of the Hessian returned by
`calc_hess` is the four-point mixed-partial stencil at steps
`(h_i, h_j)`, and each of the four evaluation points keeps every
coordinate other than `i` and `j` at its original value. -/
theorem calc_hess_offdiag (func : Point → ℚ) (x : Point) (h : StepSize)
    (hs : List ℚ) (hnorm : _get_x_and_h x h = .ok (x, hs))
    (i j : ℕ) (hij : i < j) (hj : j < x.length) :
    ∃ M, calc_hess func x h = .ok M ∧
      M i j =
        (func (addToCoord (addToCoord x i (hs.getD i 0)) j (hs.getD j 0))
          - func (addToCoord (addToCoord x i (hs.getD i 0)) j (-(hs.getD j 0)))
          - func (addToCoord (addToCoord x i (-(hs.getD i 0))) j (hs.getD j 0))
          + func (addToCoord (addToCoord x i (-(hs.getD i 0))) j (-(hs.getD j 0))))
          / (4 * hs.getD i 0 * hs.getD j 0) ∧
      (∀ m, m ≠ i → m ≠ j → ∀ a b : ℚ,
        (addToCoord (addToCoord x i a) j b).getD m 0 = x.getD m 0) := by
  refine ⟨calc_hess_core func x hs, ?_, ?_, ?_⟩
  · unfold calc_hess
    rw [hnorm]
  · rw [calc_hess_core_apply, if_pos ⟨by omega, hj⟩]
    unfold hessEntry
    rw [if_neg (by omega), if_pos hij,
      calc_partial_ij_spec func x i j _ _ (by omega)]
  · intro m hmi hmj a b
    simp only [addToCoord]
    rw [getD_set_ne (Ne.symm hmj), getD_set_ne (Ne.symm hmi)]

/-- Witness for C4 at `f = sqFunc`, `x = [1, 2]`, scalar step `1`,
entry `(0, 1)`. -/
theorem calc_hess_offdiag_witness :
    ∃ M, calc_hess sqFunc [1, 2] (.scalar 1) = .ok M ∧
      M 0 1 = (sqFunc (addToCoord (addToCoord [1, 2] 0 1) 1 1)
          - sqFunc (addToCoord (addToCoord [1, 2] 0 1) 1 (-1))
          - sqFunc (addToCoord (addToCoord [1, 2] 0 (-1)) 1 1)
          + sqFunc (addToCoord (addToCoord [1, 2] 0 (-1)) 1 (-1)))
          / (4 * (1 : ℚ) * (1 : ℚ)) ∧
      (∀ m, m ≠ 0 → m ≠ 1 → ∀ a b : ℚ,
        (addToCoord (addToCoord [1, 2] 0 a) 1 b).getD m 0
          = ([1, 2] : Point).getD m 0) :=
  calc_hess_offdiag sqFunc [1, 2] (.scalar 1) [1, 1] rfl 0 1 (by decide) (by decide)

/-- C1: whenever the Hessian computed by `calc_hess` is invertible,
`calc_cov` returns exactly the negated matrix inverse `-H⁻¹`. -/
theorem calc_cov_eq_neg_inv (func : Point → ℚ) (x : Point) (h : StepSize)
    (m : ℕ → ℕ → ℚ) (hm : calc_hess func x h = .ok m)
    (hdet : (toMat x.length m).det ≠ 0) :
    calc_cov func x h = .ok (-(toMat x.length m)⁻¹) := by
  unfold calc_cov
  rw [hm]
  simp only [linalg_inv]
  rw [if_neg hdet]
  have hinv : (toMat x.length m).det⁻¹ • (toMat x.length m).adjugate
      = (toMat x.length m)⁻¹ := by
    rw [Matrix.inv_def, Ring.inverse_eq_inv]
  rw [hinv]

/-- Witness for C1 at `f = sqFunc`, `x = [0]`, scalar step `1`: the 1×1
Hessian is `[[2]]`, which is invertible. -/
theorem calc_cov_eq_neg_inv_witness :
    calc_cov sqFunc [0] (.scalar 1)
      = .ok (-(toMat 1 (calc_hess_core sqFunc [0] [1]))⁻¹) := by
  apply calc_cov_eq_neg_inv sqFunc [0] (.scalar 1) (calc_hess_core sqFunc [0] [1])
  · rfl
  · have h00 : calc_hess_core sqFunc [0] [1] 0 0 = 2 := by
      rw [calc_hess_core_apply]
      norm_num [hessEntry, calc_partial_ii, sqFunc]
    show (toMat 1 (calc_hess_core sqFunc [0] [1])).det ≠ 0
    rw [show (toMat 1 (calc_hess_core sqFunc [0] [1])).det
        = calc_hess_core sqFunc [0] [1] 0 0 from Matrix.det_fin_one _, h00]
    norm_num

/-- C6: a constant objective has the zero matrix as finite-difference
Hessian, so `calc_cov` fails with the singular-matrix error instead of
returning a matrix. -/
theorem calc_cov_constant_singular (func : Point → ℚ) (c : ℚ)
    (hc : ∀ p, func p = c) (x : Point) (hx : 0 < x.length)
    (h : StepSize) (hs : List ℚ) (hnorm : _get_x_and_h x h = .ok (x, hs))
    (_hnz : ∀ s ∈ hs, s ≠ 0) :
    calc_cov func x h = .error .singularMatrix := by
  have hM : ∀ p q, calc_hess_core func x hs p q = 0 := by
    intro p q
    rw [calc_hess_core_apply]
    split_ifs with hpq
    · unfold hessEntry
      split_ifs
      · simp only [calc_partial_ii, hc]
        ring_nf
      · simp only [calc_partial_ij, hc]
        ring_nf
      · simp only [calc_partial_ij, hc]
        ring_nf
    · rfl
  have hdet : (toMat x.length (calc_hess_core func x hs)).det = 0 := by
    have hmat : toMat x.length (calc_hess_core func x hs) = 0 := by
      ext p q
      simp [toMat, hM]
    rw [hmat]
    have hne : Nonempty (Fin x.length) := ⟨⟨0, hx⟩⟩
    exact Matrix.det_zero hne
  unfold calc_cov calc_hess
  rw [hnorm]
  simp only [linalg_inv]
  rw [if_pos hdet]

/-- Witness for C6 at the constant objective `5`, `x = [1]`, step `1`. -/
theorem calc_cov_constant_singular_witness :
    calc_cov (fun _ => 5) [1] (.scalar 1) = .error .singularMatrix :=
  calc_cov_constant_singular (fun _ => 5) 5 (fun _ => rfl) [1] (by decide)
    (.scalar 1) [1] rfl (by simp)

/-- C8: one call to `calc_hess` evaluates the objective exactly
`3·N + 4·N·(N-1)/2` times — three per diagonal entry and four per strict
upper pair — and the unperturbed centre `x` is passed to the objective at
least once per diagonal entry (no caching of `f(x)` across entries). -/
theorem calc_hess_eval_count (x hs : Point) :
    (calc_hess_evals x hs).length
      = 3 * x.length + 4 * (x.length * (x.length - 1) / 2) ∧
    x.length ≤ (calc_hess_evals x hs).count x := by
  constructor
  · unfold calc_hess_evals
    rw [List.length_flatMap]
    have h1 : ∀ i ∈ List.range x.length,
        (List.length ∘ fun i => (List.range' i (x.length - i)).flatMap fun j =>
            if i = j then calc_partial_ii_evals x i (hs.getD i 0)
            else calc_partial_ij_evals x i j (hs.getD i 0) (hs.getD j 0)) i
          = (fun i => 3 + 4 * (x.length - 1 - i)) i := by
      intro i hi
      rw [List.mem_range] at hi
      exact inner_evals_length x hs i hi
    rw [List.map_congr_left h1, sum_inner_lengths]
  · unfold calc_hess_evals
    have hmem : ∀ i ∈ List.range x.length,
        x ∈ (List.range' i (x.length - i)).flatMap fun j =>
          if i = j then calc_partial_ii_evals x i (hs.getD i 0)
          else calc_partial_ij_evals x i j (hs.getD i 0) (hs.getD j 0) := by
      intro i hi
      rw [List.mem_range] at hi
      refine List.mem_flatMap.mpr ⟨i, ?_, ?_⟩
      · rw [List.mem_range'_1]
        omega
      · rw [if_pos rfl]
        unfold calc_partial_ii_evals
        simp
    have hcount := length_le_count_flatMap x _ (List.range x.length) hmem
    rwa [List.length_range] at hcount

/-- C9: every point the estimator ever passes to the objective has the
same length as the input point `x` and agrees with `x` outside of the (at
most two) perturbed coordinates; the input itself is never modified. -/
theorem calc_hess_evals_frame (x hs : Point) (p : Point)
    (hp : p ∈ calc_hess_evals x hs) :
    p.length = x.length ∧
      ∃ i j, ∀ m, m ≠ i → m ≠ j → p.getD m 0 = x.getD m 0 := by
  unfold calc_hess_evals at hp
  rw [List.mem_flatMap] at hp
  obtain ⟨i, hi, hp⟩ := hp
  rw [List.mem_flatMap] at hp
  obtain ⟨j, hj, hp⟩ := hp
  refine ⟨?_, i, j, ?_⟩ <;> by_cases hij : i = j
  · rw [if_pos hij] at hp
    simp only [calc_partial_ii_evals, List.mem_cons, List.not_mem_nil,
      or_false] at hp
    rcases hp with hp | hp | hp <;> subst hp <;>
      simp [List.length_set]
  · rw [if_neg hij] at hp
    simp only [calc_partial_ij_evals, List.mem_cons, List.not_mem_nil,
      or_false] at hp
    rcases hp with hp | hp | hp | hp <;> subst hp <;>
      simp [List.length_set]
  · rw [if_pos hij] at hp
    simp only [calc_partial_ii_evals, List.mem_cons, List.not_mem_nil,
      or_false] at hp
    intro m hmi hmj
    rcases hp with hp | hp | hp <;> subst hp <;>
      simp only [getD_set_ne (Ne.symm hmi)]
  · rw [if_neg hij] at hp
    simp only [calc_partial_ij_evals, List.mem_cons, List.not_mem_nil,
      or_false] at hp
    intro m hmi hmj
    rcases hp with hp | hp | hp | hp <;> subst hp <;>
      simp only [getD_set_ne (Ne.symm hmi), getD_set_ne (Ne.symm hmj)]

/-- Witness for C9: the centre point `[5]` is itself among the evaluation
points of `calc_hess` at `x = [5]`, `h = [1]`, and the frame property
holds for it. -/
theorem calc_hess_evals_frame_witness :
    ([5] : Point).length = ([5] : Point).length ∧
      ∃ i j, ∀ m, m ≠ i → m ≠ j →
        ([5] : Point).getD m 0 = ([5] : Point).getD m 0 :=
  calc_hess_evals_frame [5] [1] [5]
    (by simp [calc_hess_evals, calc_partial_ii_evals])

end Covmatrix
